import Mathlib

/-!
Verification of the content-addressable file storage and archive subsystem of
`github.com/chester84/libtools` (file tools: digest engine, path deriver,
type sniffer fallback, archive packer/unpacker, remote fetcher).

The Go sources are shallowly embedded: pure string manipulation becomes Lean
string/list functions, file and network I/O becomes explicit parameters
(`Except` for fallible opens, a read oracle for per-chunk read failures), and
the MD5 accumulator becomes an arbitrary function `h` from the byte stream fed
into it to a hex string, since every claim here concerns which bytes reach the
hash and how results are plumbed, never MD5 internals.
-/

/-! ### Generic character-list helpers used by several embeddings -/

/-- Splits a character list on every occurrence of `sep`, keeping empty
segments, exactly like Go `strings.Split(s, sep)` for a one-character
separator: `splitOnChar '/' "a//b" = ["a", "", "b"]`. -/
def splitOnChar (sep : Char) : List Char → List (List Char)
  | [] => [[]]
  | c :: rest =>
    let s := splitOnChar sep rest
    if c = sep then [] :: s else (c :: s.headD []) :: s.tail

/-- The segment of `l` after the last occurrence of `c` (the whole of `l` when
`c` does not occur). -/
def afterLast (c : Char) : List Char → List Char
  | [] => []
  | x :: r => if c ∈ r then afterLast c r else if x = c then r else x :: r

/-- Number of occurrences of `pat` as a contiguous substring of `l`, counting
one per starting position. -/
def occCountL (pat : List Char) : List Char → Nat
  | [] => if pat = [] then 1 else 0
  | c :: r => (if pat.isPrefixOf (c :: r) then 1 else 0) + occCountL pat r

/-- Hexadecimal digit (both cases), as produced by `fmt.Sprintf("%x", ...)`
respectively as accepted by the spec's notion of a hex digest. -/
def isHexChar (c : Char) : Bool :=
  c ∈ "0123456789abcdefABCDEF".data

/-! ### Path deriver (`BuildHashName` and collaborators, `src/unnamed/part_001`
lines 63-87 / `part_002` lines 52-76) -/

/-- Modelled from the spec: `SubString` lives in this repository outside
`src/`; the spec fixes its (rune-range) meaning through the storage-key law
`shardDir = environmentTag/digest[0:2]/digest[2:4]`, i.e. `SubString s b e`
is the character range `[b, e)` of `s`, clamped to the available characters. -/
def SubString (s : String) (b e : Nat) : String :=
  String.mk ((s.data.drop b).take (e - b))

/-- Modelled from the spec: `Md5Bytes` lives in this repository outside
`src/`; per the spec's digest contract it hashes the whole buffer in one
shot, here represented by applying the hash function `h` to all bytes. -/
def Md5Bytes (h : List Nat → String) (buf : List Nat) : String :=
  h buf

/-- Embeds `BuildHashName` (`src/unnamed/part_001` lines 81-87).  The environment
tag returned by the out-of-`src` collaborator `GetCurrentEnv()` is passed in
as the explicit parameter `env`. -/
def BuildHashName (env fileMd5 suffix : String) : String × String :=
  let hashDir := env ++ "/" ++ SubString fileMd5 0 2 ++ "/" ++ SubString fileMd5 2 4
  let hashName := hashDir ++ "/" ++ fileMd5 ++ "." ++ suffix
  (hashDir, hashName)

/-- Embeds `GetFileExt` (`src/unnamed/part_001` lines 117-126): last `.`-separated
piece of the filename, or `""` when the split yields a single piece. -/
def GetFileExt (filename : String) : String :=
  let exp := splitOnChar '.' filename.data
  if exp.length > 1 then String.mk (exp.getLastD []) else ""

/-! ### Digest engine (`BuildFileHashName`, `src/unnamed/part_001` lines
31-61).  The file is `openResult` (contents on success); `readFails i = true`
means the `i`-th `file.Read` call fails: Go ignores the error, leaves the
zero-initialised buffer untouched and does not advance the file offset, so
the chunk contributes `blocksize` zero bytes. -/

/-- The chunk size constant `fileChunk` (line 31). -/
def fileChunk : Nat := 8192

/-- Number of chunks: `uint64(math.Ceil(float64(filesize) / float64(fileChunk)))`. -/
def blocksOf (n : Nat) : Nat := (n + fileChunk - 1) / fileChunk

/-- The read loop of `BuildFileHashName` (lines 46-52): `k` chunks remain,
`i` is the loop index, `off` the current file offset.  Each iteration hashes
`blocksize = min(fileChunk, filesize - i*fileChunk)` bytes: the bytes at the
offset on a successful read (advancing the offset), zeros on a failed one. -/
def chunkLoop (content : List Nat) (readFails : Nat → Bool) :
    Nat → Nat → Nat → List Nat
  | 0, _, _ => []
  | k + 1, i, off =>
    let blocksize := min fileChunk (content.length - i * fileChunk)
    if readFails i then
      List.replicate blocksize 0 ++ chunkLoop content readFails k (i + 1) off
    else
      (content.drop off).take blocksize ++
        chunkLoop content readFails k (i + 1) (off + blocksize)

/-- All bytes fed into the running hash by the read loop. -/
def chunkRead (content : List Nat) (readFails : Nat → Bool) : List Nat :=
  chunkLoop content readFails (blocksOf content.length) 0 0

/-- Embeds `BuildFileHashName` (`src/unnamed/part_001` lines 34-61): open the file
(only this error is surfaced), hash the chunk stream, then derive the storage
key via `GetFileExt` and `BuildHashName`.  Result order `(hashDir, hashName,
fileMd5)` mirrors the Go named results. -/
def BuildFileHashName (h : List Nat → String) (env localFile : String)
    (openResult : Except String (List Nat)) (readFails : Nat → Bool) :
    Except String (String × String × String) :=
  match openResult with
  | .error e => .error e
  | .ok content =>
    let fileMd5 := h (chunkRead content readFails)
    let fileSuffix := GetFileExt localFile
    let hashPair := BuildHashName env fileMd5 fileSuffix
    .ok (hashPair.1, hashPair.2, fileMd5)

/-- Embeds `BuildUploadFileHashName` (`src/unnamed/part_001` lines 64-69): one-shot
hash of the in-memory buffer, then the same path derivation. -/
def BuildUploadFileHashName (h : List Nat → String) (env : String)
    (buf : List Nat) (suffix : String) : String × String × String :=
  let fileMd5 := Md5Bytes h buf
  let hashPair := BuildHashName env fileMd5 suffix
  (hashPair.1, hashPair.2, fileMd5)

/-! ### Secondary type classifier (`GetFileExtension`, `src/unnamed/part_001`
lines 228-249).  The sniffed `fileContentType` string and the error returned
by `GetFileContentType` (an empty string and the error when the 512-byte read
failed) are inputs; `filename` is the user-supplied `h.Filename`. -/

/-- Embeds `GetFileExtension`: the `switch` on the sniffed content type; the
octet-stream and zip branches take the last `.`-separated piece of the
filename, every unlisted type leaves the extension empty.  The error from
`GetFileContentType` is returned unchanged alongside. -/
def GetFileExtension (fileContentType : String) (err : Option String)
    (filename : String) : String × Option String :=
  let contentType :=
    if fileContentType = "image/jpeg" then "jpeg"
    else if fileContentType = "image/png" then "png"
    else if fileContentType = "image/gif" then "gif"
    else if fileContentType = "application/octet-stream" then
      String.mk ((splitOnChar '.' filename.data).getLastD [])
    else if fileContentType = "application/zip" then
      String.mk ((splitOnChar '.' filename.data).getLastD [])
    else if fileContentType = "application/pdf" then "pdf"
    else ""
  (contentType, err)

/-! ### Remote fetcher (`FileDownload`, `src/unnamed/part_001` lines
178-198).  `get` is the outcome of `http.Get` (transport errors only — an
HTTP error status still yields `.ok`), `create` the outcome of `os.Create`.
The response carries its status code and the bytes `io.Copy` managed to
deliver before failing or finishing; the copy error is discarded by the Go
code (`_, _ = io.Copy(...)`). -/

/-- Outcome of `http.Get`: status code, bytes the body stream delivered, and
whether the streaming copy ended in an error after those bytes. -/
structure HttpResponse where
  statusCode : Nat
  delivered : List Nat
  copyFailed : Bool
deriving DecidableEq

/-- Errors `FileDownload` can return: transport failure or file creation
failure.  Copy failures have no constructor because the code drops them. -/
inductive DownloadErr where
  | getErr (msg : String)
  | createErr (msg : String)
deriving DecidableEq

/-- Embeds `FileDownload`: result is `(realFileName, error, bytes written to the
local file)`. -/
def FileDownload (fileName : String) (get : Except String HttpResponse)
    (create : Except String Unit) : String × Option DownloadErr × List Nat :=
  let realFileName := "/tmp/" ++ fileName
  match get with
  | .error e => (realFileName, some (.getErr e), [])
  | .ok res =>
    match create with
    | .error e => (realFileName, some (.createErr e), [])
    | .ok _ => (realFileName, none, res.delivered)

/-! ### Archive packer (`ZipDirectory`, `src/unnamed/part_002` lines 241-289).
A directory tree is an `FsNode`; `filepath.Walk` visits every node, skips
directories, and writes one archive member per regular file whose name is the
path relative to the PARENT of the source directory, i.e. the joined segment
path accumulated from (and including) the source directory's base name.  Each
member header enables `zip.Deflate` and copies the file's modification time
and permission mode (`header.SetModTime` / `header.SetMode`). -/

/-- A filesystem subtree: a regular file (with permission mode, modification
time and content) or a directory with its children. -/
inductive FsNode where
  | file (name : String) (mode : Nat) (modTime : Int) (content : List Nat)
  | dir (name : String) (children : List FsNode)

/-- Compression method recorded in a zip member header. -/
inductive ZipMethod where
  | store
  | deflate
deriving DecidableEq

/-- One archive member as written by `zipWriter.CreateHeader` plus the copied
file content. -/
structure ZipMember where
  name : String
  method : ZipMethod
  modTime : Int
  mode : Nat
  content : List Nat

mutual

/-- The walk callback of `ZipDirectory`: `pfx` is the list of path segments
from the parent of the source directory down to the current node's parent
(so the node's own name is appended, matching
`filepath.Rel(filepath.Dir(sourceDir), path)`). -/
def walkZip (pfx : List String) : FsNode → List ZipMember
  | .file n mode mt content =>
    [{ name := String.intercalate "/" (pfx ++ [n]), method := .deflate,
       modTime := mt, mode := mode, content := content }]
  | .dir n ch => walkZipList (pfx ++ [n]) ch

/-- Sequential walk over a directory's children. -/
def walkZipList (pfx : List String) : List FsNode → List ZipMember
  | [] => []
  | t :: ts => walkZip pfx t ++ walkZipList pfx ts

end

/-- Embeds `ZipDirectory`: archive members produced for the source tree, in walk
order, with the source directory's base name as top-level prefix. -/
def ZipDirectory (sourceDir : FsNode) : List ZipMember :=
  walkZip [] sourceDir

mutual

/-- Relative paths (as segment lists, starting with the node's own name) of
the regular files inside a subtree; the specification-side view of a tree,
independent of the walk's prefix accumulation. -/
def filePaths : FsNode → List (List String)
  | .file n _ _ _ => [[n]]
  | .dir n ch => (filePathsList ch).map (fun p => n :: p)

/-- Extends `filePaths` over a list of children. -/
def filePathsList : List FsNode → List (List String)
  | [] => []
  | t :: ts => filePaths t ++ filePathsList ts

end

mutual

/-- Specification-side records of the regular files in a subtree: relative
segment path, permission mode, modification time and content. -/
def fileRecords : FsNode → List (List String × Nat × Int × List Nat)
  | .file n mode mt c => [([n], mode, mt, c)]
  | .dir n ch => (fileRecordsList ch).map (fun r => (n :: r.1, r.2))

/-- Extends `fileRecords` over a list of children. -/
def fileRecordsList : List FsNode → List (List String × Nat × Int × List Nat)
  | [] => []
  | t :: ts => fileRecords t ++ fileRecordsList ts

end

mutual

/-- Number of regular files in a subtree. -/
def countFiles : FsNode → Nat
  | .file _ _ _ _ => 1
  | .dir _ ch => countFilesList ch

/-- Extends `countFiles` over a list of children. -/
def countFilesList : List FsNode → Nat
  | [] => 0
  | t :: ts => countFiles t + countFilesList ts

end

/-! ### Go lexical path functions (`path/filepath` on a Unix separator), as
used by `UnzipAndExtract`: `filepath.Clean`, `filepath.Join`, `filepath.Dir`,
`filepath.Base`, `strings.TrimSuffix`.  These are faithful ports of the Go
standard library's lexical algorithms for `os.PathSeparator = '/'`. -/

/-- The path elements of a `'/'`-separated path: split on the separator and
drop the empty and `"."` elements, as the `Clean` loop does. -/
def compsOf (l : List Char) : List (List Char) :=
  (splitOnChar '/' l).filter (fun c => !(c.isEmpty || c = ['.']))

/-- Joins path elements with the `'/'` separator (`strings.Join`). -/
def joinComps : List (List Char) → List Char
  | [] => []
  | [c] => c
  | c :: c' :: rest => c ++ '/' :: joinComps (c' :: rest)

/-- The element resolution of `filepath.Clean`: processed elements are held
on the stack `acc` (reversed); `".."` pops a non-`".."` element, is dropped
at the root of a rooted path, and is kept for a relative path that cannot
pop. -/
def cleanResolve (rooted : Bool) : List (List Char) → List (List Char) →
    List (List Char)
  | acc, [] => acc.reverse
  | acc, c :: rest =>
    if c = ['.', '.'] then
      match acc with
      | [] => if rooted then cleanResolve rooted [] rest
              else cleanResolve rooted [['.', '.']] rest
      | t :: tl => if t = ['.', '.'] then cleanResolve rooted (c :: t :: tl) rest
                   else cleanResolve rooted tl rest
    else cleanResolve rooted (c :: acc) rest

/-- Embeds `filepath.Clean` for `'/'`-separated paths: drop empty and `"."`
elements, resolve `".."` lexically, restore the leading `"/"` of a rooted
path, and return `"."` for an empty result of a relative path. -/
def goClean (p : String) : String :=
  match p.data with
  | [] => "."
  | c :: cs =>
    let rooted := c = '/'
    let out := cleanResolve rooted [] (compsOf (c :: cs))
    if rooted then String.mk ('/' :: joinComps out)
    else if out = [] then "."
    else String.mk (joinComps out)

/-- Embeds `filepath.Join(a, b)`: join the non-empty parts with `'/'` and `Clean`
the result; all-empty input stays `""`. -/
def goJoin (a b : String) : String :=
  if a = "" then (if b = "" then "" else goClean b)
  else if b = "" then goClean a
  else goClean (a ++ "/" ++ b)

/-- Embeds `strings.HasPrefix`. -/
def hasPrefixS (s pre : String) : Bool :=
  pre.data.isPrefixOf s.data

/-- Embeds `filepath.Dir`: everything up to and including the final separator,
`Clean`ed; `"."` when there is no separator. -/
def goDir (p : String) : String :=
  goClean (String.mk ((p.data.reverse.dropWhile (fun c => c ≠ '/')).reverse))

/-- Embeds `filepath.Base`: last element after trailing separators are removed;
`"."` for the empty path, `"/"` for an all-separator path. -/
def goBase (p : String) : String :=
  if p = "" then "."
  else
    let l := p.data.reverse.dropWhile (fun c => c = '/')
    if l = [] then "/"
    else String.mk ((l.takeWhile (fun c => c ≠ '/')).reverse)

/-- Embeds `strings.TrimSuffix`. -/
def trimSuffix (s suffix : String) : String :=
  if suffix.data.isSuffixOf s.data then
    String.mk (s.data.take (s.data.length - suffix.data.length))
  else s

/-! ### Archive unpacker (`UnzipAndExtract`, `src/unnamed/part_001` lines
299-355).  Filesystem effects are recorded as an explicit write trace;
`os.MkdirAll`, `os.OpenFile` and the content copy are modelled as succeeding
(the claims under verification concern the traversal check, not disk
failures). -/

/-- One archive entry as read from the zip central directory. -/
structure ZipEntry where
  name : String
  isDir : Bool
  mode : Nat
  content : List Nat
deriving DecidableEq

/-- A recorded filesystem effect of the unpacker. -/
inductive FsWrite where
  | mkdirAll (path : String)
  | createFile (path : String) (mode : Nat) (content : List Nat)
deriving DecidableEq

/-- Error taxonomy of the unpacker; `pathTraversal` is the
`"illegal file path: %s"` error of the prefix check. -/
inductive UnzipErr where
  | pathTraversal
deriving DecidableEq

/-- The per-entry security check of `UnzipAndExtract` (line 317):
`strings.HasPrefix(fpath, filepath.Clean(destDir)+string(os.PathSeparator))`
with `fpath = filepath.Join(destDir, f.Name)`. -/
def entryOk (dest name : String) : Bool :=
  hasPrefixS (goJoin dest name) (goClean dest ++ "/")

/-- The entry loop of `UnzipAndExtract` (lines 313-352): per entry compute
the candidate path, stop with `pathTraversal` when the prefix check fails,
otherwise record `MkdirAll fpath` for a directory entry or
`MkdirAll (Dir fpath)` followed by the file creation (entry mode, copied
content) for a file entry. -/
def unzipLoop (dest : String) : List ZipEntry → List FsWrite →
    Except UnzipErr String × List FsWrite
  | [], ws => (.ok dest, ws)
  | e :: rest, ws =>
    let fpath := goJoin dest e.name
    if hasPrefixS fpath (goClean dest ++ "/") then
      if e.isDir then
        unzipLoop dest rest (ws ++ [.mkdirAll fpath])
      else
        unzipLoop dest rest
          (ws ++ [.mkdirAll (goDir fpath), .createFile fpath e.mode e.content])
    else (.error .pathTraversal, ws)

/-- Destination resolution (lines 302-305): an empty `destDir` becomes
`filepath.Join(os.TempDir(), strings.TrimSuffix(filepath.Base(srcZipPath),
".zip"))`, with the system temp root modelled as `/tmp`. -/
def resolveDest (srcZipPath destDir : String) : String :=
  if destDir = "" then goJoin "/tmp" (trimSuffix (goBase srcZipPath) ".zip")
  else destDir

/-- Embeds `UnzipAndExtract`: resolved destination (or the traversal error) plus
the trace of filesystem writes performed before returning. -/
def UnzipAndExtract (srcZipPath : String) (entries : List ZipEntry)
    (destDir : String) : Except UnzipErr String × List FsWrite :=
  unzipLoop (resolveDest srcZipPath destDir) entries []

/-- The writes one passing entry contributes (specification-side view of one
loop iteration, used to state what the loop leaves on disk). -/
def entryWrites (dest : String) (e : ZipEntry) : List FsWrite :=
  let fpath := goJoin dest e.name
  if e.isDir then [.mkdirAll fpath]
  else [.mkdirAll (goDir fpath), .createFile fpath e.mode e.content]

/-- Concatenated writes of a list of entries. -/
def entryWritesList (dest : String) : List ZipEntry → List FsWrite
  | [] => []
  | e :: es => entryWrites dest e ++ entryWritesList dest es


/-! ## Helper lemmas -/

/-! ### Chunked reading reassembles the content (digest engine) -/

theorem take_min_append_drop {α : Type} (s : List α) (c : Nat) :
    s.take (min c s.length) ++ s.drop c = s := by
  rcases Nat.le_total c s.length with h | h
  · rw [min_eq_left h, List.take_append_drop]
  · rw [min_eq_right h, List.take_length, List.drop_eq_nil_of_le h, List.append_nil]

theorem le_blocksOf_mul (n : Nat) : n ≤ blocksOf n * fileChunk := by
  simp only [blocksOf, fileChunk]
  omega

theorem blocksOf_le (n i : Nat) (h : n ≤ (i + 1) * fileChunk) : blocksOf n ≤ i + 1 := by
  simp only [blocksOf, fileChunk] at *
  omega

theorem mul_lt_of_lt_blocksOf (i n : Nat) (h : i < blocksOf n) : i * fileChunk < n := by
  simp only [blocksOf, fileChunk] at *
  omega

theorem chunkLoop_all_reads_ok (content : List Nat) :
    ∀ k i, i + k = blocksOf content.length →
      chunkLoop content (fun _ => false) k i (i * fileChunk) =
        content.drop (i * fileChunk) := by
  intro k
  induction k with
  | zero =>
    intro i h
    have hmul := le_blocksOf_mul content.length
    have hn : content.length ≤ i * fileChunk := by
      have : blocksOf content.length * fileChunk ≤ i * fileChunk :=
        Nat.mul_le_mul_right _ (by omega)
      omega
    rw [chunkLoop, List.drop_eq_nil_of_le hn]
  | succ k ih =>
    intro i h
    have hi : i < blocksOf content.length := by omega
    have hlt : i * fileChunk < content.length := mul_lt_of_lt_blocksOf _ _ hi
    rw [chunkLoop]
    simp only [if_neg (by simp : ¬ ((fun (_ : Nat) => false) i = true))]
    by_cases hc : fileChunk ≤ content.length - i * fileChunk
    · have hmin : min fileChunk (content.length - i * fileChunk) = fileChunk :=
        min_eq_left hc
      rw [hmin]
      have hoff : i * fileChunk + fileChunk = (i + 1) * fileChunk := by ring
      rw [hoff, ih (i + 1) (by omega)]
      have hdd : content.drop ((i + 1) * fileChunk) =
          (content.drop (i * fileChunk)).drop fileChunk := by
        rw [List.drop_drop, Nat.add_mul, Nat.one_mul]
      rw [hdd]
      have hlen : fileChunk ≤ (content.drop (i * fileChunk)).length := by
        rw [List.length_drop]
        omega
      have := take_min_append_drop (content.drop (i * fileChunk)) fileChunk
      rwa [min_eq_left hlen] at this
    · push_neg at hc
      have hk : k = 0 := by
        have hexp : (i + 1) * fileChunk = i * fileChunk + fileChunk := by ring
        have hb : blocksOf content.length ≤ i + 1 :=
          blocksOf_le _ _ (by omega)
        omega
      subst hk
      rw [chunkLoop]
      have hmin : min fileChunk (content.length - i * fileChunk) =
          content.length - i * fileChunk := min_eq_right (le_of_lt hc)
      rw [hmin, List.append_nil]
      have hlen : (content.drop (i * fileChunk)).length = content.length - i * fileChunk := by
        rw [List.length_drop]
      rw [← hlen, List.take_length]

theorem chunkRead_all_reads_ok (content : List Nat) :
    chunkRead content (fun _ => false) = content := by
  have := chunkLoop_all_reads_ok content (blocksOf content.length) 0 (by omega)
  simpa [chunkRead] using this

/-! ## Claim theorems -/

/-- Claim C2: for every byte content, the digest produced by the chunked
file hashing of `BuildFileHashName` (sequential 8192-byte chunks, last chunk
possibly shorter, never past the end) equals the digest of hashing the same
bytes as one whole buffer (`Md5Bytes` as used by `BuildUploadFileHashName`);
identical byte content therefore always yields an identical digest
regardless of chunking.  Stated for every hash accumulator `h`. -/
theorem c2_chunked_digest_eq_whole_buffer (h : List Nat → String)
    (env localFile : String) (content : List Nat) :
    BuildFileHashName h env localFile (Except.ok content) (fun _ => false) =
      Except.ok (BuildUploadFileHashName h env content (GetFileExt localFile)) := by
  simp [BuildFileHashName, BuildUploadFileHashName, chunkRead_all_reads_ok, Md5Bytes]

/-- Claim C5, counterexample: a one-byte file whose single read fails still
produces a digest — of the zero-filled buffer, not of the content — instead
of surfacing the read error, because `BuildFileHashName` discards the error
of `file.Read` (`_, _ = file.Read(buf)`).  Hash used: byte `n` renders as
the letter `'a' + n % 26`. -/
theorem c5_counterexample :
    BuildFileHashName (fun l => String.mk (l.map (fun n => Char.ofNat (97 + n % 26))))
      "dev" "f.bin" (Except.ok [1]) (fun _ => true) =
      Except.ok ("dev/a/", "dev/a//a.bin", "a") := by
  rfl

/-- Claim C5, amended: only the `os.Open` error is surfaced; read errors
during the chunk loop are ignored and a digest is returned anyway, and a
zero-length input yields the hash function's empty-input digest rather than
an error. -/
theorem c5_read_errors_ignored_empty_input_ok (h : List Nat → String)
    (env localFile : String) (content : List Nat) (readFails : Nat → Bool)
    (e : String) :
    (BuildFileHashName h env localFile (Except.ok content) readFails).isOk = true
    ∧ BuildFileHashName h env localFile (Except.error e) readFails = Except.error e
    ∧ BuildFileHashName h env localFile (Except.ok []) readFails =
        Except.ok ((BuildHashName env (h []) (GetFileExt localFile)).1,
          (BuildHashName env (h []) (GetFileExt localFile)).2, h []) :=
  ⟨rfl, rfl, rfl⟩

/-- Claim C10: `FileDownload` returns `/tmp/<fileNameHint>` with no error
whenever the GET itself succeeds and the local file can be created, whatever
the response status code and even when the streaming copy fails after
delivering only some bytes — the copy error is discarded, so a `nil` error
does not imply complete content. -/
theorem c10_download_nil_error_despite_status_and_copy (fileName : String)
    (statusCode : Nat) (delivered : List Nat) (copyFailed : Bool) :
    FileDownload fileName (Except.ok ⟨statusCode, delivered, copyFailed⟩)
      (Except.ok ()) = ("/tmp/" ++ fileName, none, delivered) :=
  rfl

/-- Claim C3, counterexample: `BuildHashName` does NOT strip a leading
separator from the extension; for digest `abcdef1234`, extension `.png` and
environment `dev` the file name is `dev/ab/cd/abcdef1234..png` (double dot),
not the claimed `dev/ab/cd/abcdef1234.png`. -/
theorem c3_counterexample :
    BuildHashName "dev" "abcdef1234" ".png" =
      ("dev/ab/cd", "dev/ab/cd/abcdef1234..png")
    ∧ (BuildHashName "dev" "abcdef1234" ".png").2 ≠ "dev/ab/cd/abcdef1234.png" :=
  ⟨rfl, by decide⟩

/-- Claim C3, amended: `BuildHashName` uses the extension verbatim and
attaches exactly one separator between digest and extension; for digest
`abcdef1234`, extension `png` (no leading separator) and environment `dev`
it returns shard directory `dev/ab/cd` and file name
`dev/ab/cd/abcdef1234.png`. -/
theorem c3_extension_used_verbatim (env d s : String) :
    BuildHashName "dev" "abcdef1234" "png" =
      ("dev/ab/cd", "dev/ab/cd/abcdef1234.png")
    ∧ (BuildHashName env d s).2 = (BuildHashName env d s).1 ++ "/" ++ d ++ "." ++ s :=
  ⟨rfl, rfl⟩

/-- Claim C6, counterexample: a digest shorter than 4 characters does not
make `BuildHashName` fail — its result type has no error case at all — it
still returns a storage key, with the missing shard characters clamped
away: digest `ab` yields `("dev/ab/", "dev/ab//ab.png")`. -/
theorem c6_counterexample :
    BuildHashName "dev" "ab" "png" = ("dev/ab/", "dev/ab//ab.png") :=
  rfl

/-- Claim C6, amended: for a digest shorter than 4 characters the deriver
does not fail with `InvalidDigest`; it returns the storage key built from
the clamped character ranges `[0,2)` and `[2,4)`, the second shard segment
being shorter than 2 characters. -/
theorem c6_short_digest_still_returns_key (env suffix d : String)
    (hd : d.data.length < 4) :
    BuildHashName env d suffix =
      (env ++ "/" ++ String.mk (d.data.take 2) ++ "/"
         ++ String.mk ((d.data.drop 2).take 2),
       env ++ "/" ++ String.mk (d.data.take 2) ++ "/"
         ++ String.mk ((d.data.drop 2).take 2) ++ "/" ++ d ++ "." ++ suffix)
    ∧ ((d.data.drop 2).take 2).length < 2 := by
  refine ⟨rfl, ?_⟩
  have hlen : ((d.data.drop 2).take 2).length = min 2 (d.data.length - 2) := by
    simp [List.length_take, List.length_drop]
  omega

/-- Claim C6, witness: the amended statement at digest `abc`, extension
`png`, environment `dev`. -/
theorem c6_witness :
    ("abc" : String).data.length < 4
    ∧ (BuildHashName "dev" "abc" "png" =
        ("dev" ++ "/" ++ String.mk (("abc" : String).data.take 2) ++ "/"
           ++ String.mk ((("abc" : String).data.drop 2).take 2),
         "dev" ++ "/" ++ String.mk (("abc" : String).data.take 2) ++ "/"
           ++ String.mk ((("abc" : String).data.drop 2).take 2) ++ "/" ++ "abc" ++ "." ++ "png")
       ∧ ((("abc" : String).data.drop 2).take 2).length < 2) :=
  ⟨by decide, c6_short_digest_still_returns_key "dev" "png" "abc" (by decide)⟩

/-! ### Unpacker loop lemmas -/

theorem unzipLoop_cons_ok (dest : String) (e : ZipEntry) (rest : List ZipEntry)
    (ws : List FsWrite) (hok : entryOk dest e.name = true) :
    unzipLoop dest (e :: rest) ws = unzipLoop dest rest (ws ++ entryWrites dest e) := by
  have hok' : hasPrefixS (goJoin dest e.name) (goClean dest ++ "/") = true := hok
  simp only [unzipLoop, entryWrites]
  rw [if_pos hok']
  cases hdir : e.isDir with
  | true => rw [if_pos rfl, if_pos rfl]
  | false => rw [if_neg Bool.false_ne_true, if_neg Bool.false_ne_true]

theorem unzipLoop_cons_bad (dest : String) (e : ZipEntry) (rest : List ZipEntry)
    (ws : List FsWrite) (hbad : entryOk dest e.name = false) :
    unzipLoop dest (e :: rest) ws = (Except.error UnzipErr.pathTraversal, ws) := by
  have hbad' : ¬ hasPrefixS (goJoin dest e.name) (goClean dest ++ "/") = true := by
    have : hasPrefixS (goJoin dest e.name) (goClean dest ++ "/") = false := hbad
    simp [this]
  simp only [unzipLoop]
  rw [if_neg hbad']

theorem unzipLoop_traversal_aborts (dest : String) :
    ∀ (entries : List ZipEntry) (ws : List FsWrite),
      (∃ e ∈ entries, entryOk dest e.name = false) →
      (unzipLoop dest entries ws).1 = Except.error UnzipErr.pathTraversal
      ∧ (unzipLoop dest entries ws).2 =
          ws ++ entryWritesList dest
            (entries.takeWhile (fun e => entryOk dest e.name)) := by
  intro entries
  induction entries with
  | nil =>
    intro ws hex
    rcases hex with ⟨e, he, _⟩
    cases he
  | cons e rest ih =>
    intro ws hex
    by_cases hok : entryOk dest e.name = true
    · have hex' : ∃ e' ∈ rest, entryOk dest e'.name = false := by
        rcases hex with ⟨e', he', hf⟩
        rcases List.mem_cons.mp he' with rfl | hm
        · rw [hok] at hf
          cases hf
        · exact ⟨e', hm, hf⟩
      have hstep := ih (ws ++ entryWrites dest e) hex'
      rw [unzipLoop_cons_ok dest e rest ws hok, List.takeWhile_cons, if_pos hok]
      refine ⟨hstep.1, ?_⟩
      rw [hstep.2, entryWritesList, List.append_assoc]
    · have hbad : entryOk dest e.name = false := by
        cases hc : entryOk dest e.name with
        | true => exact absurd hc hok
        | false => rfl
      rw [unzipLoop_cons_bad dest e rest ws hbad, List.takeWhile_cons,
        if_neg (by simp [hbad])]
      exact ⟨rfl, by simp [entryWritesList]⟩

theorem unzipLoop_files_inside (dest : String) :
    ∀ (entries : List ZipEntry) (ws : List FsWrite),
      (∀ p m c, FsWrite.createFile p m c ∈ ws →
        hasPrefixS p (goClean dest ++ "/") = true) →
      ∀ p m c, FsWrite.createFile p m c ∈ (unzipLoop dest entries ws).2 →
        hasPrefixS p (goClean dest ++ "/") = true := by
  intro entries
  induction entries with
  | nil =>
    intro ws hws p m c hm
    exact hws p m c hm
  | cons e rest ih =>
    intro ws hws p m c hm
    by_cases hok : entryOk dest e.name = true
    · rw [unzipLoop_cons_ok dest e rest ws hok] at hm
      refine ih _ ?_ p m c hm
      intro p' m' c' hm'
      rcases List.mem_append.mp hm' with hin | hin
      · exact hws p' m' c' hin
      · have hfile : p' = goJoin dest e.name := by
          simp only [entryWrites] at hin
          cases hdir : e.isDir with
          | true =>
            rw [hdir, if_pos rfl] at hin
            exact absurd hin (by simp)
          | false =>
            rw [hdir, if_neg Bool.false_ne_true] at hin
            rcases List.mem_cons.mp hin with heq | hin2
            · exact absurd heq (by simp)
            · rcases List.mem_cons.mp hin2 with heq | hin3
              · injection heq with h1 h2 h3
              · cases hin3
        rw [hfile]
        exact hok
    · have hbad : entryOk dest e.name = false := by
        cases hc : entryOk dest e.name with
        | true => exact absurd hc hok
        | false => rfl
      rw [unzipLoop_cons_bad dest e rest ws hbad] at hm
      exact hws p m c hm

/-- Claim C1: whenever some archive entry's candidate path (the cleaned join
of destination directory and entry name) does not have the cleaned
destination directory plus a trailing separator as a (strict) prefix,
`UnzipAndExtract` returns the `PathTraversal` error, the unpack is aborted
at the first such entry — exactly the entries of the longest passing prefix
have been extracted and are not rolled back — and every file created lies
under the destination root. -/
theorem c1_unzip_traversal_aborts_no_escape (srcZipPath destDir : String)
    (entries : List ZipEntry)
    (hbad : ∃ e ∈ entries, entryOk (resolveDest srcZipPath destDir) e.name = false) :
    (UnzipAndExtract srcZipPath entries destDir).1 =
        Except.error UnzipErr.pathTraversal
    ∧ (UnzipAndExtract srcZipPath entries destDir).2 =
        entryWritesList (resolveDest srcZipPath destDir)
          (entries.takeWhile
            (fun e => entryOk (resolveDest srcZipPath destDir) e.name))
    ∧ (∀ p m c, FsWrite.createFile p m c ∈ (UnzipAndExtract srcZipPath entries destDir).2 →
        hasPrefixS p (goClean (resolveDest srcZipPath destDir) ++ "/") = true) := by
  have h1 := unzipLoop_traversal_aborts (resolveDest srcZipPath destDir) entries [] hbad
  have h2 := unzipLoop_files_inside (resolveDest srcZipPath destDir) entries []
    (by intro p m c hm; cases hm)
  exact ⟨h1.1, by simpa using h1.2, h2⟩

/-- Claim C1, witness: unpacking `[a.txt, ../evil]` into `/out` yields the
`PathTraversal` error after extracting only `a.txt` under `/out`. -/
theorem c1_witness :
    (∃ e ∈ [(⟨"a.txt", false, 420, [1, 2]⟩ : ZipEntry),
            ⟨"../evil", false, 420, [3]⟩],
       entryOk (resolveDest "" "/out") e.name = false)
    ∧ ((UnzipAndExtract "" [⟨"a.txt", false, 420, [1, 2]⟩,
          ⟨"../evil", false, 420, [3]⟩] "/out").1 =
            Except.error UnzipErr.pathTraversal
      ∧ (UnzipAndExtract "" [⟨"a.txt", false, 420, [1, 2]⟩,
          ⟨"../evil", false, 420, [3]⟩] "/out").2 =
          entryWritesList (resolveDest "" "/out")
            (([(⟨"a.txt", false, 420, [1, 2]⟩ : ZipEntry),
               ⟨"../evil", false, 420, [3]⟩]).takeWhile
              (fun e => entryOk (resolveDest "" "/out") e.name))
      ∧ (∀ p m c, FsWrite.createFile p m c ∈
            (UnzipAndExtract "" [⟨"a.txt", false, 420, [1, 2]⟩,
              ⟨"../evil", false, 420, [3]⟩] "/out").2 →
            hasPrefixS p (goClean (resolveDest "" "/out") ++ "/") = true)) :=
  ⟨by decide,
   c1_unzip_traversal_aborts_no_escape "" "/out"
     [⟨"a.txt", false, 420, [1, 2]⟩, ⟨"../evil", false, 420, [3]⟩]
     (by decide)⟩

/-! ### Packer walk lemmas -/

mutual

theorem walkZip_eq_fileRecords (pfx : List String) :
    ∀ t : FsNode, walkZip pfx t = (fileRecords t).map (fun r =>
      ({ name := String.intercalate "/" (pfx ++ r.1), method := .deflate,
         modTime := r.2.2.1, mode := r.2.1, content := r.2.2.2 } : ZipMember))
  | .file n mode mt c => by
    simp [walkZip, fileRecords]
  | .dir n ch => by
    rw [walkZip, fileRecords, walkZipList_eq_fileRecords (pfx ++ [n]) ch,
      List.map_map]
    congr 1
    funext r
    simp [List.append_assoc]

theorem walkZipList_eq_fileRecords (pfx : List String) :
    ∀ ch : List FsNode, walkZipList pfx ch = (fileRecordsList ch).map (fun r =>
      ({ name := String.intercalate "/" (pfx ++ r.1), method := .deflate,
         modTime := r.2.2.1, mode := r.2.1, content := r.2.2.2 } : ZipMember))
  | [] => by
    simp [walkZipList, fileRecordsList]
  | t :: ts => by
    rw [walkZipList, fileRecordsList, List.map_append,
      walkZip_eq_fileRecords pfx t, walkZipList_eq_fileRecords pfx ts]

end

mutual

theorem filePaths_eq_fileRecords :
    ∀ t : FsNode, filePaths t = (fileRecords t).map (fun r => r.1)
  | .file n mode mt c => by
    simp [filePaths, fileRecords]
  | .dir n ch => by
    rw [filePaths, fileRecords, filePathsList_eq_fileRecords ch, List.map_map,
      List.map_map]
    rfl

theorem filePathsList_eq_fileRecords :
    ∀ ch : List FsNode, filePathsList ch = (fileRecordsList ch).map (fun r => r.1)
  | [] => by
    simp [filePathsList, fileRecordsList]
  | t :: ts => by
    rw [filePathsList, fileRecordsList, List.map_append,
      filePaths_eq_fileRecords t, filePathsList_eq_fileRecords ts]

end

mutual

theorem countFiles_eq_fileRecords :
    ∀ t : FsNode, countFiles t = (fileRecords t).length
  | .file n mode mt c => by
    simp [countFiles, fileRecords]
  | .dir n ch => by
    rw [countFiles, fileRecords, countFilesList_eq_fileRecords ch,
      List.length_map]

theorem countFilesList_eq_fileRecords :
    ∀ ch : List FsNode, countFilesList ch = (fileRecordsList ch).length
  | [] => by
    simp [countFilesList, fileRecordsList]
  | t :: ts => by
    rw [countFilesList, fileRecordsList, List.length_append,
      countFiles_eq_fileRecords t, countFilesList_eq_fileRecords ts]

end

/-- Claim C7: `ZipDirectory` writes one archive member per regular file,
named by the file's path relative to the parent of the source directory (so
the source directory's own base name is the top-level prefix of every entry
name), and writes no members for directories (the member count equals the
number of regular files). -/
theorem c7_zip_names_relative_to_parent_no_dir_members (base : String)
    (ch : List FsNode) :
    (ZipDirectory (FsNode.dir base ch)).map ZipMember.name =
        (filePaths (FsNode.dir base ch)).map (String.intercalate "/")
    ∧ (ZipDirectory (FsNode.dir base ch)).length = countFiles (FsNode.dir base ch)
    ∧ ∀ m ∈ ZipDirectory (FsNode.dir base ch),
        ∃ rest, m.name = String.intercalate "/" (base :: rest) := by
  refine ⟨?_, ?_, ?_⟩
  · rw [ZipDirectory, walkZip_eq_fileRecords, filePaths_eq_fileRecords,
      List.map_map, List.map_map]
    rfl
  · rw [ZipDirectory, walkZip_eq_fileRecords, countFiles_eq_fileRecords,
      List.length_map]
  · intro m hm
    rw [ZipDirectory, walkZip_eq_fileRecords] at hm
    rcases List.mem_map.mp hm with ⟨r, hr, rfl⟩
    rw [fileRecords] at hr
    rcases List.mem_map.mp hr with ⟨r', _, rfl⟩
    exact ⟨r'.1, by simp⟩

/-- Claim C8: every archive member written by `ZipDirectory` has the
deflate compression method enabled and carries the source file's
modification timestamp and permission mode (and content); the whole output
is the file records rendered member-by-member. -/
theorem c8_zip_members_deflate_modtime_mode (sourceDir : FsNode) :
    ZipDirectory sourceDir = (fileRecords sourceDir).map (fun r =>
      ({ name := String.intercalate "/" r.1, method := .deflate,
         modTime := r.2.2.1, mode := r.2.1, content := r.2.2.2 } : ZipMember)) := by
  rw [ZipDirectory, walkZip_eq_fileRecords]
  simp

/-! ### Split-on-separator lemmas (type classifier fallback) -/

theorem splitOnChar_ne_nil (c : Char) : ∀ l, splitOnChar c l ≠ []
  | [] => by simp [splitOnChar]
  | x :: r => by
    simp only [splitOnChar]
    by_cases h : x = c
    · rw [if_pos h]
      exact List.cons_ne_nil _ _
    · rw [if_neg h]
      exact List.cons_ne_nil _ _

theorem splitOnChar_of_not_mem (c : Char) : ∀ l, c ∉ l → splitOnChar c l = [l]
  | [], _ => rfl
  | x :: r, h => by
    have hx : ¬ x = c := fun e => h (e ▸ List.mem_cons_self x r)
    have hr : c ∉ r := fun hm => h (List.mem_cons_of_mem _ hm)
    simp only [splitOnChar]
    rw [if_neg hx, splitOnChar_of_not_mem c r hr]
    rfl

theorem two_le_splitOnChar_of_mem (c : Char) : ∀ l, c ∈ l → 2 ≤ (splitOnChar c l).length
  | x :: r, h => by
    simp only [splitOnChar]
    by_cases hx : x = c
    · rw [if_pos hx]
      have hne := splitOnChar_ne_nil c r
      have : 0 < (splitOnChar c r).length := List.length_pos.mpr hne
      simp only [List.length_cons]
      omega
    · rw [if_neg hx]
      have hr : c ∈ r := by
        rcases List.mem_cons.mp h with e | hm
        · exact absurd e.symm hx
        · exact hm
      have ih := two_le_splitOnChar_of_mem c r hr
      have ht : (splitOnChar c r).tail.length = (splitOnChar c r).length - 1 :=
        List.length_tail _
      simp only [List.length_cons]
      omega

theorem afterLast_of_not_mem (c : Char) : ∀ l, c ∉ l → afterLast c l = l
  | [], _ => rfl
  | x :: r, h => by
    have hx : ¬ x = c := fun e => h (e ▸ List.mem_cons_self x r)
    have hm : c ∉ r := fun hm => h (List.mem_cons_of_mem _ hm)
    simp only [afterLast]
    rw [if_neg hm, if_neg hx]

theorem getLastD_splitOnChar (c : Char) :
    ∀ l, (splitOnChar c l).getLastD [] = afterLast c l
  | [] => rfl
  | x :: r => by
    simp only [splitOnChar, afterLast]
    by_cases hx : x = c
    · rw [if_pos hx, List.getLastD_cons, getLastD_splitOnChar c r]
      by_cases hm : c ∈ r
      · rw [if_pos hm]
      · rw [if_neg hm, if_pos hx]
        exact afterLast_of_not_mem c r hm
    · rw [if_neg hx]
      by_cases hm : c ∈ r
      · have h2 := two_le_splitOnChar_of_mem c r hm
        obtain ⟨s0, s1, srest, hS⟩ :
            ∃ s0 s1 srest, splitOnChar c r = s0 :: s1 :: srest := by
          match hS : splitOnChar c r with
          | [] => rw [hS] at h2; simp at h2
          | [a] => rw [hS] at h2; simp at h2
          | a :: b :: t => exact ⟨a, b, t, rfl⟩
        have hrec := getLastD_splitOnChar c r
        rw [hS] at hrec
        rw [if_pos hm, hS]
        simp only [List.tail_cons, List.headD_cons, List.getLastD_cons] at hrec ⊢
        exact hrec
      · rw [if_neg hm, if_neg hx, splitOnChar_of_not_mem c r hm]
        rfl

/-- Claim C9: for every sniffed content type outside the allow-list
`{image/jpeg, image/png, image/gif, application/octet-stream,
application/zip, application/pdf}`, `GetFileExtension` returns the empty
extension together with whatever error `GetFileContentType` produced (no
`UnknownType` marker, no failure of its own); and for the octet-stream and
zip cases the returned extension is the part of the user-supplied filename
after its last dot. -/
theorem c9_extension_allowlist_and_filename_fallback (ct : String)
    (err : Option String) (fn : String) :
    (ct ∉ (["image/jpeg", "image/png", "image/gif", "application/octet-stream",
        "application/zip", "application/pdf"] : List String) →
      GetFileExtension ct err fn = ("", err))
    ∧ ('.' ∈ fn.data →
        GetFileExtension "application/octet-stream" err fn =
          (String.mk (afterLast '.' fn.data), err)
        ∧ GetFileExtension "application/zip" err fn =
          (String.mk (afterLast '.' fn.data), err)) := by
  constructor
  · intro hct
    have h1 : ¬ ct = "image/jpeg" := fun h => hct (by rw [h]; simp)
    have h2 : ¬ ct = "image/png" := fun h => hct (by rw [h]; simp)
    have h3 : ¬ ct = "image/gif" := fun h => hct (by rw [h]; simp)
    have h4 : ¬ ct = "application/octet-stream" := fun h => hct (by rw [h]; simp)
    have h5 : ¬ ct = "application/zip" := fun h => hct (by rw [h]; simp)
    have h6 : ¬ ct = "application/pdf" := fun h => hct (by rw [h]; simp)
    simp only [GetFileExtension]
    rw [if_neg h1, if_neg h2, if_neg h3, if_neg h4, if_neg h5, if_neg h6]
  · intro _
    constructor
    · simp only [GetFileExtension, getLastD_splitOnChar]
      rw [if_neg (by decide), if_neg (by decide), if_neg (by decide), if_pos trivial]
    · simp only [GetFileExtension, getLastD_splitOnChar]
      rw [if_neg (by decide), if_neg (by decide), if_neg (by decide),
        if_neg (by decide), if_pos trivial]

/-- Claim C9, witness: `text/html` (outside the allow-list) yields the empty
extension with the sniffer's error passed through, and the octet-stream and
zip cases on `a.tar.gz` yield the filename part after its last dot. -/
theorem c9_witness :
    GetFileExtension "text/html" (some "boom") "a.tar.gz" = ("", some "boom")
    ∧ GetFileExtension "application/octet-stream" (some "boom") "a.tar.gz" =
        (String.mk (afterLast '.' ("a.tar.gz" : String).data), some "boom")
    ∧ GetFileExtension "application/zip" (some "boom") "a.tar.gz" =
        (String.mk (afterLast '.' ("a.tar.gz" : String).data), some "boom") :=
  ⟨(c9_extension_allowlist_and_filename_fallback "text/html" (some "boom")
      "a.tar.gz").1 (by decide),
   ((c9_extension_allowlist_and_filename_fallback "text/html" (some "boom")
      "a.tar.gz").2 (by decide)).1,
   ((c9_extension_allowlist_and_filename_fallback "text/html" (some "boom")
      "a.tar.gz").2 (by decide)).2⟩

/-! ### Occurrence counting and shard splitting (storage-key invariants) -/

theorem occCountL_cons (pat : List Char) (x : Char) (r : List Char) :
    occCountL pat (x :: r) =
      (if pat.isPrefixOf (x :: r) then 1 else 0) + occCountL pat r := rfl

theorem splitOnChar_cons (sep x : Char) (r : List Char) :
    splitOnChar sep (x :: r) =
      if x = sep then [] :: splitOnChar sep r
      else (x :: (splitOnChar sep r).headD []) :: (splitOnChar sep r).tail := rfl

theorem isPrefixOf_cons_cons (a b : Char) (as bs : List Char) :
    (a :: as).isPrefixOf (b :: bs) = (a == b && as.isPrefixOf bs) := rfl

theorem occCountL_nil (pat : List Char) (hp : pat ≠ []) : occCountL pat [] = 0 := by
  simp [occCountL, hp]

theorem occCountL_zero_of_short (pat : List Char) :
    ∀ l, l.length < pat.length → occCountL pat l = 0
  | [], h => by
    have hp : pat ≠ [] := by
      intro e
      rw [e] at h
      simp at h
    exact occCountL_nil pat hp
  | x :: r, h => by
    rw [occCountL_cons]
    have hpre : pat.isPrefixOf (x :: r) = false := by
      cases hb : pat.isPrefixOf (x :: r) with
      | false => rfl
      | true =>
        have hle := ( List.isPrefixOf_iff_prefix.mp hb).length_le
        simp only [List.length_cons] at hle h
        omega
    have hr : r.length < pat.length := by
      simp only [List.length_cons] at h
      omega
    rw [hpre, occCountL_zero_of_short pat r hr]
    simp

theorem occCountL_self (pat : List Char) (hp : pat ≠ []) :
    occCountL pat pat = 1 := by
  cases hpat : pat with
  | nil => exact absurd hpat hp
  | cons c pr =>
    rw [occCountL_cons,  List.isPrefixOf_iff_prefix.mpr ( List.prefix_refl _),
      occCountL_zero_of_short (c :: pr) pr (by simp)]
    simp

theorem isPrefixOf_append_sep (c : Char) :
    ∀ (pat u b : List Char), c ∉ pat →
      pat.isPrefixOf (u ++ c :: b) = pat.isPrefixOf u
  | [], u, b, _ => by
    cases u <;> simp [List.isPrefixOf]
  | p :: pr, [], b, hc => by
    have hpc : (p == c) = false := by
      have hne : p ≠ c := fun e => hc (by rw [e]; exact List.mem_cons_self c pr)
      simpa using hne
    simp [List.isPrefixOf, hpc]
  | p :: pr, y :: u', b, hc => by
    have hcr : c ∉ pr := fun hm => hc (List.mem_cons_of_mem _ hm)
    rw [List.cons_append, isPrefixOf_cons_cons, isPrefixOf_cons_cons,
      isPrefixOf_append_sep c pr u' b hcr]

theorem occCountL_append_sep (pat : List Char) (c : Char) (hp : pat ≠ [])
    (hc : c ∉ pat) : ∀ a b, occCountL pat (a ++ c :: b) =
      occCountL pat a + occCountL pat b
  | [], b => by
    have hpre : pat.isPrefixOf (c :: b) = false := by
      have hred := isPrefixOf_append_sep c pat [] b hc
      simp only [List.nil_append] at hred
      rw [hred]
      cases pat with
      | nil => exact absurd rfl hp
      | cons a as => rfl
    rw [List.nil_append, occCountL_cons, hpre, occCountL_nil pat hp]
    simp
  | x :: a', b => by
    have hpre := isPrefixOf_append_sep c pat (x :: a') b hc
    rw [List.cons_append] at hpre
    rw [List.cons_append, occCountL_cons, occCountL_cons,
      occCountL_append_sep pat c hp hc a' b, hpre]
    omega

theorem occCountL_zero_of_not_sub (pat : List Char) :
    ∀ l, ¬ pat <:+: l → occCountL pat l = 0
  | [], h => by
    have hp : pat ≠ [] := by
      intro e
      subst e
      exact h List.nil_infix
    exact occCountL_nil pat hp
  | x :: r, h => by
    have h1 : pat.isPrefixOf (x :: r) = false := by
      cases hb : pat.isPrefixOf (x :: r) with
      | false => rfl
      | true => exact absurd ( List.isPrefixOf_iff_prefix.mp hb).isInfix h
    have h2 : ¬ pat <:+: r := fun hi => h ( List.infix_cons hi)
    rw [occCountL_cons, h1, occCountL_zero_of_not_sub pat r h2]
    rfl

theorem splitOnChar_append_sep (sep : Char) :
    ∀ (a b : List Char), sep ∉ a →
      splitOnChar sep (a ++ sep :: b) = a :: splitOnChar sep b
  | [], b, _ => by
    simp [splitOnChar]
  | x :: a', b, h => by
    have hx : ¬ x = sep := fun e => h (e ▸ List.mem_cons_self x a')
    have ha : sep ∉ a' := fun hm => h (List.mem_cons_of_mem _ hm)
    rw [List.cons_append, splitOnChar_cons, if_neg hx,
      splitOnChar_append_sep sep a' b ha]
    rfl


/-- Claim C4, counterexample: the claim quantifies over every extension, but
for digest `abcd` and extension `abcd` the file name `dev/ab/cd/abcd.abcd`
contains the digest twice, not exactly once. -/
theorem c4_counterexample :
    (BuildHashName "dev" "abcd" "abcd").2 = "dev/ab/cd/abcd.abcd"
    ∧ occCountL ("abcd" : String).data ("dev/ab/cd/abcd.abcd" : String).data = 2 :=
  ⟨rfl, rfl⟩

/-- Claim C4, amended: for a hex digest `D` of length at least 4, an
environment tag without separators that does not contain `D`, and an
extension that does not contain `D`, the shard directory splits into exactly
`[env, D[0:2], D[2:4]]` with both shard segments of length 2, and the file
name ends in `.E` and contains `D` exactly once. -/
theorem c4_storage_key_shape (env D E : String)
    (hlen : 4 ≤ D.data.length)
    (hhex : D.data.all isHexChar = true)
    (henv : '/' ∉ env.data)
    (hDenv : ¬ D.data <:+: env.data)
    (hDE : ¬ D.data <:+: E.data) :
    splitOnChar '/' (BuildHashName env D E).1.data =
        [env.data, D.data.take 2, (D.data.drop 2).take 2]
    ∧ (D.data.take 2).length = 2
    ∧ ((D.data.drop 2).take 2).length = 2
    ∧ ('.' :: E.data) <:+ (BuildHashName env D E).2.data
    ∧ occCountL D.data (BuildHashName env D E).2.data = 1 := by
  have hD : D.data ≠ [] := by
    intro e
    rw [e] at hlen
    simp at hlen
  have hslash : '/' ∉ D.data := by
    intro hm
    have := List.all_eq_true.mp hhex _ hm
    exact absurd this (by decide)
  have hdot : '.' ∉ D.data := by
    intro hm
    have := List.all_eq_true.mp hhex _ hm
    exact absurd this (by decide)
  have ht2 : '/' ∉ D.data.take 2 := fun hm => hslash (List.take_subset _ _ hm)
  have ht2' : '/' ∉ (D.data.drop 2).take 2 := fun hm =>
    hslash (List.drop_subset _ _ (List.take_subset _ _ hm))
  have h1 : (BuildHashName env D E).1.data =
      ((((env.data ++ ['/']) ++ D.data.take 2) ++ ['/']) ++ (D.data.drop 2).take 2) :=
    rfl
  have h1' : (BuildHashName env D E).1.data =
      env.data ++ '/' :: (D.data.take 2 ++ '/' :: (D.data.drop 2).take 2) := by
    rw [h1]
    simp [List.append_assoc]
  have h2 : (BuildHashName env D E).2.data =
      (((((((env.data ++ ['/']) ++ D.data.take 2) ++ ['/']) ++ (D.data.drop 2).take 2)
        ++ ['/']) ++ D.data) ++ ['.']) ++ E.data :=
    rfl
  have h2' : (BuildHashName env D E).2.data =
      env.data ++ '/' :: (D.data.take 2 ++ '/' :: ((D.data.drop 2).take 2
        ++ '/' :: (D.data ++ '.' :: E.data))) := by
    rw [h2]
    simp [List.append_assoc]
  refine ⟨?_, ?_, ?_, ?_, ?_⟩
  · rw [h1', splitOnChar_append_sep '/' env.data _ henv,
      splitOnChar_append_sep '/' (D.data.take 2) _ ht2,
      splitOnChar_of_not_mem '/' _ ht2']
  · rw [List.length_take]
    omega
  · rw [List.length_take, List.length_drop]
    omega
  · refine ⟨(((BuildHashName env D E).1.data ++ ['/']) ++ D.data), ?_⟩
    rw [h2', h1']
    simp [List.append_assoc]
  · rw [h2', occCountL_append_sep D.data '/' hD hslash,
      occCountL_append_sep D.data '/' hD hslash,
      occCountL_append_sep D.data '/' hD hslash,
      occCountL_append_sep D.data '.' hD hdot,
      occCountL_zero_of_not_sub D.data env.data hDenv,
      occCountL_zero_of_not_sub D.data E.data hDE,
      occCountL_self D.data hD,
      occCountL_zero_of_short D.data (D.data.take 2)
        (by rw [List.length_take]; omega),
      occCountL_zero_of_short D.data ((D.data.drop 2).take 2)
        (by rw [List.length_take, List.length_drop]; omega)]

/-- Claim C4, witness: digest `abcdef1234`, extension `png`, environment
`dev` satisfy every hypothesis, and the amended conclusion holds there. -/
theorem c4_witness :
    (4 ≤ ("abcdef1234" : String).data.length
      ∧ ("abcdef1234" : String).data.all isHexChar = true
      ∧ '/' ∉ ("dev" : String).data
      ∧ ¬ ("abcdef1234" : String).data <:+: ("dev" : String).data
      ∧ ¬ ("abcdef1234" : String).data <:+: ("png" : String).data)
    ∧ (splitOnChar '/' (BuildHashName "dev" "abcdef1234" "png").1.data =
          [("dev" : String).data, ("abcdef1234" : String).data.take 2,
           (("abcdef1234" : String).data.drop 2).take 2]
      ∧ (("abcdef1234" : String).data.take 2).length = 2
      ∧ ((("abcdef1234" : String).data.drop 2).take 2).length = 2
      ∧ ('.' :: ("png" : String).data) <:+ (BuildHashName "dev" "abcdef1234" "png").2.data
      ∧ occCountL ("abcdef1234" : String).data
          (BuildHashName "dev" "abcdef1234" "png").2.data = 1) :=
  ⟨⟨by decide, by decide, by decide, by decide, by decide⟩,
   c4_storage_key_shape "dev" "abcdef1234" "png" (by decide) (by decide)
     (by decide) (by decide) (by decide)⟩
